import Mathlib

/-!
Shallow embedding of `src/a111_breathing_rasp_0902_v2.py` (resp-sync):
a streaming breathing-rate pipeline with numeric extraction, a quality
(SNR) estimator over a power spectrum, a validity gate, a bounded
smoothing buffer with a hold policy, and a tick-aligned one-record-per-
second emitter.

Conventions of the embedding:
* Python floats are modelled as rationals (`ℚ`); every finite machine
  float is a rational.  Non-finite floats (NaN, ±inf) are modelled by a
  dedicated constructor and are filtered out by `safe_float`, exactly as
  the source's `math.isfinite` check does.
* A frame result (`res` in the source) is `Option Frame`: `none` models
  a non-`dict` result, `some` an association list of field names to
  Python values (first binding wins, as in a `dict`).
* The real-valued `10*log10(...)` of the quality estimator is specified
  over `ℝ` (`snrDb`); its computable core (`snrPrimary`) returns the
  (peak, noise-median) pair that feeds the logarithm.
* `time.time()` values are rationals; the per-iteration wall-clock
  reading (line 141 of the source) is the `now` field of `FrameIn`.
-/

namespace RespSync

/-- One entry of a power spectrum after `np.asarray(..., dtype=float)`:
a finite value or a non-finite one (NaN / ±inf collapse to `nf`; the
pipeline only distinguishes finite from non-finite on paths the claims
exercise). -/
inductive FVal where
  | fin (q : ℚ)
  | nf
deriving DecidableEq, Repr

/-- A Python value as it can appear in a frame-result bag: a finite
number (int or float), a bool, a non-finite float (NaN or ±inf), `None`,
or an array/sequence of floats (the `power_spectrum` field). -/
inductive PyVal where
  | num (q : ℚ)
  | boolv (b : Bool)
  | nanv
  | nonev
  | arr (l : List FVal)
deriving DecidableEq, Repr

/-- A frame-result `dict`: field names bound to values. -/
abbrev Frame := List (String × PyVal)

/-- `res.get(k)`: a missing key yields Python `None`. -/
def getField (fr : Frame) (k : String) : PyVal :=
  (fr.lookup k).getD .nonev

/-- `safe_float` (lines 12-19): a bool is explicitly rejected; a finite
number is returned; a non-finite float, `None`, or a sequence (for which
`float(...)` raises) yields `None`. -/
def safe_float : PyVal → Option ℚ
  | .num q => some q
  | _ => none

/-- The hertz-valued field names tried first by `bpm_from_res`
(line 25), in priority order. -/
def hzKeys : List String :=
  ["f_est", "f_dft_est", "breathing_rate_hz", "freq_hz", "f_hat", "resp_rate_hz"]

/-- The bpm-valued fallback field names of `bpm_from_res` (line 29). -/
def bpmKeys : List String :=
  ["breathing_rate_bpm", "respiratory_rate_bpm", "bpm"]

/-- The `for k in (...)` loops of `bpm_from_res`: return the first key
whose value coerces to a finite number. -/
def firstHit (fr : Frame) : List String → Option ℚ
  | [] => none
  | k :: ks =>
    match safe_float (getField fr k) with
    | some v => some v
    | none => firstHit fr ks

/-- `bpm_from_res` (lines 21-33): a non-`dict` result yields `None`;
otherwise the first coercible hertz field is multiplied by 60, and only
if none matches is the bpm field list tried, unmultiplied. -/
def bpm_from_res : Option Frame → Option ℚ
  | none => none
  | some fr =>
    match firstHit fr hzKeys with
    | some v => some (v * 60)
    | none => firstHit fr bpmKeys

/-- `norm_init_progress` (lines 35-40): coerce `init_progress`; absence
or a non-coercible value defaults to `1.0`; a value `> 1` is divided by
100; otherwise it is used as-is.  The result type is `Option ℚ` because
the call sites (lines 145 and 191) test the value against `None`. -/
def norm_init_progress (res : Option Frame) : Option ℚ :=
  let raw := match res with
    | some fr => getField fr "init_progress"
    | none => PyVal.nonev
  match safe_float raw with
  | none => some 1
  | some ip => if ip > 1 then some (ip / 100) else some ip

/-- `res.get("power_spectrum")` followed by `np.asarray(..., dtype=float)`
(lines 119-124): `None` (or a non-`dict` result) leaves `ps` as `None`;
a scalar becomes a size-1 array; an array is taken as-is. -/
def getSpectrum : Option Frame → Option (List FVal)
  | none => none
  | some fr =>
    match getField fr "power_spectrum" with
    | .arr l => some l
    | .nonev => none
    | .num q => some [.fin q]
    | .boolv b => some [.fin (if b then 1 else 0)]
    | .nanv => some [.nf]

/-- The snr fallback read (line 139):
`safe_float(isinstance(res, dict) and res.get("snr"))` — for a
non-`dict` result the `and` yields `False`, which `safe_float` rejects. -/
def snrField (res : Option Frame) : Option ℚ :=
  match res with
  | some fr => safe_float (getField fr "snr")
  | none => safe_float (.boolv false)

/-! ## Quality estimator (lines 119-139) -/

/-- `np.all(np.isfinite(ps))`. -/
def allFinite (ps : List FVal) : Bool :=
  ps.all fun e => match e with | .fin _ => true | .nf => false

/-- The finite values of a spectrum, in order (equals the whole spectrum
when `allFinite` holds). -/
def finVals (ps : List FVal) : List ℚ :=
  ps.filterMap fun e => match e with | .fin q => some q | .nf => none

/-- `np.any(ps > 0)`; a NaN compares `False` against 0.  (A `+inf` entry
would compare `True` in numpy but cannot be distinguished from NaN in
`FVal`; the source only evaluates this conjunct after `allFinite`
already holds, so the difference is unreachable.) -/
def anyPos (ps : List FVal) : Bool :=
  ps.any fun e => match e with | .fin q => decide (0 < q) | .nf => false

/-- `int(np.nanargmax(ps))` on an all-finite spectrum: the index of the
first occurrence of the maximum. -/
def argmaxIdx (qs : List ℚ) : ℕ :=
  (List.range qs.length).foldl
    (fun best i => if qs.getD best 0 < qs.getD i 0 then i else best) 0

/-- `np.median`: the middle element of the sorted data for an odd count,
the mean of the two middle elements for an even count. -/
def npMedian (xs : List ℚ) : ℚ :=
  let s := List.insertionSort (· ≤ ·) xs
  let n := xs.length
  if n % 2 = 1 then s.getD (n / 2) 0
  else (s.getD (n / 2 - 1) 0 + s.getD (n / 2) 0) / 2

/-- The boolean mask of lines 129-130: `True` everywhere except on the
half-open window `[lo, hi)`. -/
def maskList (n lo hi : ℕ) : List Bool :=
  (List.range n).map fun i => !(decide (lo ≤ i) && decide (i < hi))

/-- `ps[mask]`: keep the entries whose mask bit is `True`. -/
def applyMask (qs : List ℚ) (m : List Bool) : List ℚ :=
  (qs.zip m).filterMap fun p => if p.2 then some p.1 else none

/-- The primary SNR path (lines 123-134), up to the logarithm: under the
preconditions (all finite, more than 8 bins, some strictly positive
value) mask out `[max(0, peak-2), min(size, peak+3))`, keep the strictly
positive remainder as noise, and — when noise remains — return the pair
(peak value, median of the noise).  `none` means the primary path left
`snr = None`. -/
def snrPrimary (ps : Option (List FVal)) : Option (ℚ × ℚ) :=
  match ps with
  | none => none
  | some l =>
    if allFinite l && decide (8 < l.length) && anyPos l then
      let qs := finVals l
      let p := argmaxIdx qs
      let lo := p - 2
      let hi := min qs.length (p + 3)
      let noise := (applyMask qs (maskList qs.length lo hi)).filter fun q => decide (0 < q)
      if noise.length = 0 then none
      else some (qs.getD p 0, npMedian noise)
    else none

/-- The full quality estimate: `10.0 * math.log10(peak / median(noise))`
on the primary path (line 134), else the reported `snr` field
(line 139), else `None`.  Real-valued because `log10` is. -/
noncomputable def snrDb (ps : Option (List FVal)) (res : Option Frame) : Option ℝ :=
  match snrPrimary ps with
  | some pm => some (10 * Real.logb 10 ((pm.1 : ℝ) / (pm.2 : ℝ)))
  | none => (snrField res).map fun q => (q : ℝ)

/-- The spec's formulation of the noise set, for comparison with the
mask-based code path: the strictly positive values among the bins whose
index lies outside the window from two below to two above the peak
index (clipping is implicit: indices are already within the array). -/
def specNoiseSet (qs : List ℚ) : List ℚ :=
  (qs.enum.filter fun iv =>
    (decide (iv.1 + 2 < argmaxIdx qs) || decide (argmaxIdx qs + 2 < iv.1)) &&
      decide (0 < iv.2)).map (·.2)

/-! ## Configuration and state -/

/-- `ValidityConfig`: the argparse options that govern the pipeline
(lines 49-59), with their source defaults. -/
structure Config where
  f_low : ℚ := 12 / 100
  f_high : ℚ := 7 / 10
  snr_min : ℚ := 10
  hold_last_for : ℚ := 5
  smooth_window : ℕ := 5
  smooth : String := "median"
  prominence_min : ℚ := 8 / 5
  max_step_bpm : ℚ := 6
  max_ratio : ℚ := 3 / 2
  debug : Bool := false
deriving DecidableEq, Repr

/-- `PipelineState`: the deque `q` (oldest first), `last_good_bpm`,
`last_good_t` (initially `0.0`), and the `next_tick` cursor. -/
structure PState where
  q : List ℚ
  last_good_bpm : Option ℚ
  last_good_t : ℚ
  next_tick : ℤ
deriving DecidableEq, Repr

/-- The state created at start-up (lines 97-102): empty buffer, no last
good value, `last_good_t = 0.0`, `next_tick = floor(t0) + 1`. -/
def initState (t0 : ℚ) : PState :=
  { q := [], last_good_bpm := none, last_good_t := 0, next_tick := ⌊t0⌋ + 1 }

/-! ## Validity gate (lines 144-166) -/

/-- The base validity conjunction of lines 145-149: warm-up, quality,
and band. -/
def validBase (cfg : Config) (ip snr raw_bpm : Option ℚ) : Bool :=
  (match ip with | none => true | some v => decide (v ≥ 99 / 100)) &&
  (match snr with | none => true | some v => decide (v ≥ cfg.snr_min)) &&
  (match raw_bpm with
   | none => false
   | some v => decide (60 * cfg.f_low ≤ v) && decide (v ≤ 60 * cfg.f_high))

/-- Models the Python expression `'np' in globals()` at line 153.
`numpy` is imported inside `main` (line 122), which binds `np` as a
*function-local* name; the module's global namespace never acquires the
key `"np"`, so this test is `False` on every iteration of the loop. -/
def np_in_globals : Bool := false

/-- The body of the prominence gate (lines 154-158), assuming the guard
of line 153 passed: `True` when the gate would set `valid = False`.
With fewer than three bins `np.argpartition(ps, -3)` raises and the
surrounding `except` skips the gate; otherwise `tops` is the sorted
list of the three largest values and the gate fires when the
second-largest is strictly positive and largest/second-largest is
strictly below `prominence_min`.  A spectrum with a non-finite entry is
treated as NaN-contaminated (comparisons yield `False`). -/
def promRejects (cfg : Config) (ps : List FVal) : Bool :=
  if allFinite ps then
    let qs := finVals ps
    if qs.length < 3 then false
    else
      let s := List.insertionSort (· ≤ ·) qs
      let tops := s.drop (s.length - 3)
      if decide (0 < tops.getD 1 0) then
        decide (tops.getD 2 0 / tops.getD 1 0 < cfg.prominence_min)
      else false
  else false

/-- Lines 152-160: `if valid and ps is not None and 'np' in globals():`
possibly demote `valid` to `False`; any exception inside is swallowed. -/
def validProm (cfg : Config) (valid : Bool) (ps : Option (List FVal)) : Bool :=
  match ps with
  | some l => if valid && np_in_globals && promRejects cfg l then false else valid
  | none => valid

/-- The step/ratio rejection test of lines 164-166.  The literal `1e-6`
is taken at face value as `1/1000000`. -/
def stepRejects (cfg : Config) (raw last : ℚ) : Bool :=
  let r := raw / max (1 / 1000000) last
  decide (|raw - last| > cfg.max_step_bpm) ||
  decide (r > cfg.max_ratio) || decide (r < 1 / cfg.max_ratio)

/-- The complete per-frame validity decision (lines 144-166): base
gates, then prominence, then — when a previous accepted value exists —
the step/ratio gate. -/
def frameValid (cfg : Config) (st : PState) (ip snr raw : Option ℚ)
    (ps : Option (List FVal)) : Bool :=
  let v := validProm cfg (validBase cfg ip snr raw) ps
  if v then
    match st.last_good_bpm with
    | none => v
    | some lg => if stepRejects cfg (raw.getD 0) lg then false else v
  else v

/-! ## Smoothing buffer (lines 169-175) -/

/-- `deque(maxlen=cap).append(v)`: the oldest element is evicted when
the deque is full. -/
def pushBounded (cap : ℕ) (xs : List ℚ) (v : ℚ) : List ℚ :=
  let ys := xs ++ [v]
  ys.drop (ys.length - cap)

/-- Lines 171-174: `sorted(q)[len(q)//2]` for `--smooth median`, else
`sum(q)/len(q)`.  (On an empty buffer the Python would raise; the
pipeline only calls this right after an append with `maxlen >= 1`.) -/
def smoothOf (cfg : Config) (buf : List ℚ) : ℚ :=
  if cfg.smooth = "median" then
    (List.insertionSort (· ≤ ·) buf).getD (buf.length / 2) 0
  else buf.sum / (buf.length : ℚ)

/-! ## Record formatting and emission (lines 178-205) -/

/-- `f"{x:.2f}"`: render with exactly two fraction digits.  (Python
rounds the underlying binary float half-to-even; this model rounds the
rational half-up — the two agree away from exact ties, and no claim
exercises a tie.) -/
def fmt2 (q : ℚ) : String :=
  let n : ℤ := round (q * 100)
  let sign := if n < 0 then "-" else ""
  let m := n.natAbs
  sign ++ toString (m / 100) ++ "." ++
    (if m % 100 < 10 then "0" else "") ++ toString (m % 100)

/-- `OutputRecord`: one emitted line.  The `time_hms` column (wall-clock
`datetime.now()` re-read at each print, line 179) is not modelled; the
claims speak only of the unix second, the bpm text and the notes. -/
structure OutputRecord where
  unix_s : ℤ
  bpm : String
  note : List String
deriving DecidableEq, Repr

/-- Lines 182-201: build the record for tick `tick` from the current
snapshot — held flag and bpm text, then the note tokens in their fixed
order (`held=1`, `snr=`, `init=`, `raw=` for an in-band rejected
estimate, and the two debug-only tokens). -/
def buildRecord (cfg : Config) (st : PState) (ip snr raw : Option ℚ)
    (valid : Bool) (res : Option Frame) (now : ℚ) (tick : ℤ) : OutputRecord :=
  let held := st.last_good_bpm.isSome && decide (now - st.last_good_t ≤ cfg.hold_last_for)
  let out_bpm := if held then fmt2 (st.last_good_bpm.getD 0) else ""
  let note0 : List String := if held then ["held=1"] else []
  let note1 := note0 ++ (match snr with | some v => ["snr=" ++ fmt2 v] | none => [])
  let note2 := note1 ++ (match ip with | some v => ["init=" ++ fmt2 v] | none => [])
  let note3 := note2 ++ (match raw with
    | some rv =>
      if !valid && decide (60 * cfg.f_low ≤ rv) && decide (rv ≤ 60 * cfg.f_high) then
        ["raw=" ++ fmt2 rv]
      else []
    | none => [])
  let note4 := note3 ++ (if cfg.debug then
      (match (res.bind fun fr => safe_float (getField fr "f_est")) with
        | some fe => ["f_est=" ++ fmt2 (fe * 60)] | none => []) ++
      (match (res.bind fun fr => safe_float (getField fr "f_dft_est")) with
        | some fd => ["f_dft=" ++ fmt2 (fd * 60)] | none => [])
    else [])
  { unix_s := tick, bpm := out_bpm, note := note4 }

/-- The catch-up loop of lines 178-205: `while now >= next_tick`, emit
the record for `next_tick` and advance the cursor by one. -/
def emitLoop (p : ℤ → OutputRecord) (now : ℚ) (next : ℤ) :
    List OutputRecord × ℤ :=
  if h : (next : ℚ) ≤ now then
    let rest := emitLoop p now (next + 1)
    (p next :: rest.1, rest.2)
  else ([], next)
termination_by (⌊now⌋ + 1 - next).toNat
decreasing_by
  have hf : next ≤ ⌊now⌋ := Int.le_floor.mpr h
  omega

/-- The inputs one loop iteration consumes: the processor result bag
and the wall-clock reading of line 141.  The `snr` field carries the
value the quality estimator produced for this frame (a machine float,
hence a rational); its relation to the spectrum is specified separately
through `snrDb`. -/
structure FrameIn where
  res : Option Frame
  snr : Option ℚ
  now : ℚ
deriving DecidableEq, Repr

/-- The validity decision of lines 144-166 applied to a frame's
extracted quantities (lines 115-119). -/
def frameValidAt (cfg : Config) (st : PState) (f : FrameIn) : Bool :=
  frameValid cfg st (norm_init_progress f.res) f.snr (bpm_from_res f.res) (getSpectrum f.res)

/-- The state update of lines 169-175: on acceptance push the raw bpm,
recompute the smoothed value and stamp the acceptance time; on
rejection leave everything untouched. -/
def stepState (cfg : Config) (st : PState) (f : FrameIn) : PState :=
  if frameValidAt cfg st f then
    let q2 := pushBounded cfg.smooth_window st.q ((bpm_from_res f.res).getD 0)
    { st with q := q2, last_good_bpm := some (smoothOf cfg q2), last_good_t := f.now }
  else st

/-- One full loop iteration (lines 107-205): extract, gate, update the
smoothing state on acceptance, then run the catch-up emitter against
the post-update snapshot. -/
def processFrame (cfg : Config) (st : PState) (f : FrameIn) :
    PState × List OutputRecord :=
  let st1 := stepState cfg st f
  let er := emitLoop (buildRecord cfg st1 (norm_init_progress f.res) f.snr
    (bpm_from_res f.res) (frameValidAt cfg st f) f.res f.now) f.now st1.next_tick
  ({ st1 with next_tick := er.2 }, er.1)

/-- A whole run from a given state: fold `processFrame` over the frame
stream, concatenating the emitted records. -/
def runFrames (cfg : Config) (st : PState) : List FrameIn → PState × List OutputRecord
  | [] => (st, [])
  | f :: fs =>
    let r1 := processFrame cfg st f
    let r2 := runFrames cfg r1.1 fs
    (r2.1, r1.2 ++ r2.2)

/-- The number of iterations of `while now >= next_tick` from cursor
`next`: one per integer in `[next, ⌊now⌋]`. -/
def emitCount (now : ℚ) (next : ℤ) : ℕ := (⌊now⌋ + 1 - next).toNat

/-- The consecutive integers `a, a+1, …, a+n-1`. -/
def intRange (a : ℤ) (n : ℕ) : List ℤ := (List.range n).map fun i : ℕ => a + (i : ℤ)

/-- The wall-clock reading of the last frame of a run (`d` when the run
is empty). -/
def endNow (d : ℚ) (fs : List FrameIn) : ℚ := fs.foldl (fun _ f => f.now) d

/-- Frame-arrival order: the wall clock does not run backwards between
two successive iterations. -/
def nowLE (a b : FrameIn) : Prop := a.now ≤ b.now

instance : DecidableRel nowLE := fun a b => inferInstanceAs (Decidable (a.now ≤ b.now))

/-- The pipeline state seen at the start of each iteration of a run. -/
def statesAlong (cfg : Config) (st : PState) : List FrameIn → List PState
  | [] => []
  | f :: fs => st :: statesAlong cfg (processFrame cfg st f).1 fs

/-- `v` was accepted by the Validity Gate during the run: some
iteration saw a state and a frame for which the gate passed and the
frame's resolved raw bpm was `v`. -/
def AcceptedIn (cfg : Config) (st : PState) (fs : List FrameIn) (v : ℚ) : Prop :=
  ∃ p ∈ (statesAlong cfg st fs).zip fs,
    frameValidAt cfg p.1 p.2 = true ∧ bpm_from_res p.2.res = some v

/-! ## The secondary output destination (lines 62-63 and 92-95)

The parser declares `--out` (stored at attribute `out`), but line 93
reads `args.out_csv`.  `argparse.Namespace` raises `AttributeError` for
an attribute no `add_argument` call declared. -/

/-- The attribute names the parser of lines 43-66 defines on the parsed
namespace (each flag's dest: the long option with `-` mapped to `_`). -/
def argDests : List String :=
  ["host", "r0", "r1", "rate", "n_dft", "f_low", "f_high", "snr_min",
   "hold_last_for", "smooth_window", "smooth", "prominence_min",
   "max_step_bpm", "max_ratio", "debug", "out"]

/-- Lines 92-95: `csv_fh = None; if args.out_csv: open(...)`.  Reading
`args.out_csv` succeeds only if `out_csv` is a declared dest; otherwise
the interpreter raises `AttributeError` and the run dies before the
frame loop.  On success the configured destination (the value of the
`--out` option) would be opened in append mode. -/
def openSecondary (outOpt : Option String) : Except String (Option String) :=
  if argDests.contains "out_csv" then .ok outOpt
  else .error "AttributeError"

/-! ## Helper lemmas: field resolution -/

theorem firstHit_eq_none_iff (fr : Frame) :
    ∀ ks : List String, firstHit fr ks = none ↔ ∀ k ∈ ks, safe_float (getField fr k) = none := by
  intro ks
  induction ks with
  | nil => simp [firstHit]
  | cons k ks ih =>
    simp only [firstHit]
    cases h : safe_float (getField fr k) with
    | none => simp [h, ih]
    | some v => simp [h]

theorem firstHit_some_mem (fr : Frame) :
    ∀ (ks : List String) (v : ℚ), firstHit fr ks = some v →
      ∃ k ∈ ks, safe_float (getField fr k) = some v := by
  intro ks
  induction ks with
  | nil => simp [firstHit]
  | cons k ks ih =>
    intro v hv
    cases h : safe_float (getField fr k) with
    | none =>
      simp only [firstHit, h] at hv
      obtain ⟨k', hk', hv'⟩ := ih v hv
      exact ⟨k', List.mem_cons_of_mem _ hk', hv'⟩
    | some w =>
      simp only [firstHit, h] at hv
      exact ⟨k, List.mem_cons_self _ _, by rw [h, hv]⟩

/-- C9: `resolve_bpm` tries the hertz-valued field names first and
returns the first present, coercible, finite value multiplied by 60;
only when none of them matches does it try the bpm-valued field names,
returning the first match unmultiplied; a frame with a hertz field
`f_est = 0.25` and a bpm field `bpm = 99` resolves to 15.0. -/
theorem c9_resolve_bpm_priority :
    (∀ (fr : Frame) (v : ℚ), firstHit fr hzKeys = some v →
      bpm_from_res (some fr) = some (v * 60) ∧
      ∃ k ∈ hzKeys, safe_float (getField fr k) = some v)
    ∧ (∀ fr : Frame, firstHit fr hzKeys = none →
      bpm_from_res (some fr) = firstHit fr bpmKeys ∧
      ∀ k ∈ hzKeys, safe_float (getField fr k) = none)
    ∧ (∀ (fr : Frame) (v : ℚ), firstHit fr bpmKeys = some v →
      ∃ k ∈ bpmKeys, safe_float (getField fr k) = some v)
    ∧ bpm_from_res (some [("f_est", PyVal.num (1 / 4)), ("bpm", PyVal.num 99)]) = some 15 := by
  refine ⟨?_, ?_, ?_, by with_unfolding_all decide⟩
  · intro fr v hv
    refine ⟨?_, firstHit_some_mem fr hzKeys v hv⟩
    simp [bpm_from_res, hv]
  · intro fr h
    refine ⟨?_, (firstHit_eq_none_iff fr hzKeys).mp h⟩
    simp [bpm_from_res, h]
  · intro fr v hv
    exact firstHit_some_mem fr bpmKeys v hv

/-- C2 counterexample: with the median method, the buffer
`[10,12,14,16]` smooths to `sorted[4//2] = sorted[2] = 14`, the
*upper*-middle element, not 12. -/
theorem c2_counterexample :
    smoothOf ({} : Config) [10, 12, 14, 16] = 14 ∧
    smoothOf ({} : Config) [10, 12, 14, 16] ≠ 12 := by
  constructor <;> with_unfolding_all decide

/-- C3 (code bug): the prominence gate of lines 152-160 is dead code —
its guard `'np' in globals()` is always `False` because `numpy` is
imported inside `main` — so `validProm` never changes the validity
flag.  At a concrete spectrum whose top-two ratio `4/3` lies below the
default `prominence_min = 1.6` (and whose frame passes gates 1-3), the
gate body would reject, yet the frame remains valid. -/
theorem c3_prominence_gate_dead :
    (∀ (cfg : Config) (b : Bool) (ps : Option (List FVal)), validProm cfg b ps = b)
    ∧ promRejects ({} : Config)
        [.fin 0, .fin 0, .fin 0, .fin 0, .fin 0, .fin 0, .fin 0, .fin 4, .fin 3] = true
    ∧ frameValid ({} : Config) (initState 0)
        (norm_init_progress (some [("f_est", PyVal.num (1 / 4)),
          ("power_spectrum", PyVal.arr
            [.fin 0, .fin 0, .fin 0, .fin 0, .fin 0, .fin 0, .fin 0, .fin 4, .fin 3])]))
        none
        (bpm_from_res (some [("f_est", PyVal.num (1 / 4)),
          ("power_spectrum", PyVal.arr
            [.fin 0, .fin 0, .fin 0, .fin 0, .fin 0, .fin 0, .fin 0, .fin 4, .fin 3])]))
        (getSpectrum (some [("f_est", PyVal.num (1 / 4)),
          ("power_spectrum", PyVal.arr
            [.fin 0, .fin 0, .fin 0, .fin 0, .fin 0, .fin 0, .fin 0, .fin 4, .fin 3])]))
        = true := by
  refine ⟨?_, by with_unfolding_all decide, by with_unfolding_all decide⟩
  intro cfg b ps
  cases ps with
  | none => rfl
  | some l => simp [validProm, np_in_globals]

/-- C4 (code bug): the secondary output option is declared as `--out`
(dest `out`), but line 93 reads `args.out_csv`, an attribute the parser
never defines — so the startup raises `AttributeError` and no record is
ever appended to the configured destination. -/
theorem c4_secondary_output_broken :
    "out" ∈ argDests ∧ "out_csv" ∉ argDests ∧
    ∀ o : Option String, openSecondary o = .error "AttributeError" := by
  refine ⟨by decide, by decide, fun o => rfl⟩

/-- C2 (amended): with the median method the smoothed value is the
*upper*-middle order statistic of the buffer — an element of the buffer
such that at least `len/2 + 1` elements are `≤` it and at least
`len - len/2` elements are `≥` it (for an odd count this is the true
middle; for an even count the upper of the two middles). -/
theorem c2_median_upper_middle (cfg : Config) (buf : List ℚ)
    (hm : cfg.smooth = "median") (hne : buf ≠ []) :
    smoothOf cfg buf ∈ buf ∧
    buf.length / 2 + 1 ≤ buf.countP (fun x => decide (x ≤ smoothOf cfg buf)) ∧
    buf.length - buf.length / 2 ≤ buf.countP (fun x => decide (smoothOf cfg buf ≤ x)) := by
  have hsort : List.Sorted (· ≤ ·) (List.insertionSort (· ≤ ·) buf) :=
    List.sorted_insertionSort _ buf
  have hperm : (List.insertionSort (· ≤ ·) buf).Perm buf :=
    List.perm_insertionSort _ buf
  set s := List.insertionSort (· ≤ ·) buf with hs
  have hlen : s.length = buf.length := hperm.length_eq
  have hn : 0 < buf.length := List.length_pos.mpr hne
  set k := buf.length / 2 with hk
  have hklt : k < s.length := by omega
  have hsm : smoothOf cfg buf = s.get ⟨k, hklt⟩ := by
    rw [smoothOf, if_pos hm, ← hs, List.getD_eq_getElem _ _ (by omega : k < s.length)]
    simp
  rw [hsm]
  set m := s.get ⟨k, hklt⟩ with hmdef
  refine ⟨hperm.mem_iff.mp (List.get_mem s k hklt), ?_, ?_⟩
  · -- at least k+1 of the buffer are ≤ m: all of `take (k+1) s` are
    have hcnt : List.countP (fun x => decide (x ≤ m)) (s.take (k + 1)) = (s.take (k + 1)).length := by
      rw [List.countP_eq_length]
      intro a ha
      obtain ⟨⟨i, hi⟩, hget⟩ := List.mem_iff_get.mp ha
      rw [List.length_take] at hi
      have hi' : i < s.length := by omega
      have : s.get ⟨i, hi'⟩ = a := by
        rw [List.get_take s hi' (by omega : i < k + 1)]
        exact hget
      have hle : s.get ⟨i, hi'⟩ ≤ m :=
        hsort.rel_get_of_le (Fin.mk_le_mk.mpr (by omega))
      simp only [decide_eq_true_eq]
      rw [← this]
      exact hle
    have hsplit : List.countP (fun x => decide (x ≤ m)) s =
        List.countP (fun x => decide (x ≤ m)) (s.take (k + 1)) +
        List.countP (fun x => decide (x ≤ m)) (s.drop (k + 1)) := by
      rw [← List.countP_append, List.take_append_drop]
    have := hperm.countP_eq (fun x => decide (x ≤ m))
    rw [← this, hsplit, hcnt, List.length_take]
    omega
  · -- at least len−k of the buffer are ≥ m: all of `drop k s` are
    have hcnt : List.countP (fun x => decide (m ≤ x)) (s.drop k) = (s.drop k).length := by
      rw [List.countP_eq_length]
      intro a ha
      obtain ⟨⟨i, hi⟩, hget⟩ := List.mem_iff_get.mp ha
      have hki : k + i < s.length := by rw [List.length_drop] at hi; omega
      have : s.get ⟨k + i, hki⟩ = a := by
        rw [List.get_drop s hki]
        exact hget
      have hle : m ≤ s.get ⟨k + i, hki⟩ :=
        hsort.rel_get_of_le (Fin.mk_le_mk.mpr (by omega))
      simp only [decide_eq_true_eq]
      rw [← this]
      exact hle
    have hsplit : List.countP (fun x => decide (m ≤ x)) s =
        List.countP (fun x => decide (m ≤ x)) (s.take k) +
        List.countP (fun x => decide (m ≤ x)) (s.drop k) := by
      rw [← List.countP_append, List.take_append_drop]
    have := hperm.countP_eq (fun x => decide (m ≤ x))
    rw [← this, hsplit, hcnt, List.length_drop]
    omega

/-- Witness for C2's amended theorem at the spec's own example buffer
`[10,12,14,16]`: the smoothed value is 14, an element with at least 3
buffer elements `≤` it and at least 2 `≥` it. -/
theorem c2_median_upper_middle_witness :
    (({} : Config).smooth = "median") ∧ ([10, 12, 14, 16] : List ℚ) ≠ [] ∧
    smoothOf ({} : Config) [10, 12, 14, 16] = 14 ∧
    (smoothOf ({} : Config) [10, 12, 14, 16] ∈ ([10, 12, 14, 16] : List ℚ) ∧
      4 / 2 + 1 ≤ ([10, 12, 14, 16] : List ℚ).countP
        (fun x => decide (x ≤ smoothOf ({} : Config) [10, 12, 14, 16])) ∧
      4 - 4 / 2 ≤ ([10, 12, 14, 16] : List ℚ).countP
        (fun x => decide (smoothOf ({} : Config) [10, 12, 14, 16] ≤ x))) :=
  ⟨rfl, by decide, by with_unfolding_all decide,
    c2_median_upper_middle {} [10, 12, 14, 16] rfl (by decide)⟩

/-- C5: for a frame that passed gates 1-4 (the base-and-prominence
validity) with `raw = some r`, when a previous accepted value `lg`
exists the frame is rejected exactly when `|r − lg| > max_step_bpm` or
`r/max(1e-6, lg) > max_ratio` or `r/max(1e-6, lg) < 1/max_ratio`; when
no previous accepted value exists the frame stays valid (the first
accepted value is never step-rejected). -/
theorem frameValid_step_unfold (cfg : Config) (st : PState) (ip snr raw : Option ℚ)
    (ps : Option (List FVal)) (lg : ℚ)
    (h14 : validProm cfg (validBase cfg ip snr raw) ps = true)
    (hlg : st.last_good_bpm = some lg) :
    frameValid cfg st ip snr raw ps = !(stepRejects cfg (raw.getD 0) lg) := by
  rw [frameValid, hlg, h14]
  cases hs : stepRejects cfg (raw.getD 0) lg <;> simp [hs]

theorem frameValid_no_last (cfg : Config) (st : PState) (ip snr raw : Option ℚ)
    (ps : Option (List FVal))
    (h14 : validProm cfg (validBase cfg ip snr raw) ps = true)
    (hlg : st.last_good_bpm = none) :
    frameValid cfg st ip snr raw ps = true := by
  rw [frameValid, hlg, h14]
  rfl

theorem c5_step_gate (cfg : Config) (st : PState) (ip snr : Option ℚ)
    (ps : Option (List FVal)) (r lg : ℚ)
    (h14 : validProm cfg (validBase cfg ip snr (some r)) ps = true)
    (hlg : st.last_good_bpm = some lg) :
    (frameValid cfg st ip snr (some r) ps = false ↔
      (cfg.max_step_bpm < |r - lg| ∨
        cfg.max_ratio < r / max (1 / 1000000) lg ∨
        r / max (1 / 1000000) lg < 1 / cfg.max_ratio)) ∧
    (∀ st' : PState, st'.last_good_bpm = none →
      frameValid cfg st' ip snr (some r) ps = true) := by
  constructor
  · rw [frameValid_step_unfold cfg st ip snr (some r) ps lg h14 hlg]
    rw [Bool.not_eq_false', stepRejects]
    simp only [Option.getD_some, Bool.or_eq_true, decide_eq_true_eq, gt_iff_lt]
    rw [or_assoc]
  · intro st' hst'
    exact frameValid_no_last cfg st' ip snr (some r) ps h14 hst'

/-- Witness for C5 at the spec's example: `last_good = 15`,
`max_step_bpm = 6`, `max_ratio = 1.5` (the defaults): `raw = 23` is
rejected (step 8 > 6) and `raw = 20` is accepted (step 5 ≤ 6, ratio
4/3 within [2/3, 3/2]). -/
theorem c5_step_gate_witness :
    validProm ({} : Config) (validBase {} (some 1) none (some 23)) none = true ∧
    validProm ({} : Config) (validBase {} (some 1) none (some 20)) none = true ∧
    (⟨[15], some 15, 0, 0⟩ : PState).last_good_bpm = some 15 ∧
    frameValid ({} : Config) ⟨[15], some 15, 0, 0⟩ (some 1) none (some 23) none = false ∧
    frameValid ({} : Config) ⟨[15], some 15, 0, 0⟩ (some 1) none (some 20) none = true := by
  have h23 := c5_step_gate {} ⟨[15], some 15, 0, 0⟩ (some 1) none none 23 15
    (by with_unfolding_all decide) rfl
  have h20 := c5_step_gate {} ⟨[15], some 15, 0, 0⟩ (some 1) none none 20 15
    (by with_unfolding_all decide) rfl
  refine ⟨by with_unfolding_all decide, by with_unfolding_all decide, rfl, ?_, ?_⟩
  · exact h23.1.mpr (Or.inl (by norm_num))
  · have hnot : ¬(({} : Config).max_step_bpm < |(20 : ℚ) - 15| ∨
        ({} : Config).max_ratio < 20 / max (1 / 1000000) 15 ∨
        (20 : ℚ) / max (1 / 1000000) 15 < 1 / ({} : Config).max_ratio) := by
      with_unfolding_all decide
    have hne : frameValid ({} : Config) ⟨[15], some 15, 0, 0⟩ (some 1) none (some 20) none ≠ false :=
      fun hf => hnot (h20.1.mp hf)
    revert hne
    cases frameValid ({} : Config) ⟨[15], some 15, 0, 0⟩ (some 1) none (some 20) none <;> simp

/-! ## Emitter lemmas -/

theorem emitLoop_eq (p : ℤ → OutputRecord) (now : ℚ) :
    ∀ (n : ℕ) (next : ℤ), emitCount now next = n →
      emitLoop p now next = ((List.range n).map (fun i : ℕ => p (next + (i : ℤ))), next + n) := by
  intro n
  induction n with
  | zero =>
    intro next hc
    have hnot : ¬((next : ℚ) ≤ now) := by
      intro hle
      have := Int.le_floor.mpr hle
      unfold emitCount at hc
      omega
    rw [emitLoop, dif_neg hnot]
    simp
  | succ n ih =>
    intro next hc
    have hfl : next ≤ ⌊now⌋ := by unfold emitCount at hc; omega
    have hle : (next : ℚ) ≤ now :=
      le_trans (by exact_mod_cast hfl) (Int.floor_le now)
    rw [emitLoop, dif_pos hle, ih (next + 1) (by unfold emitCount at hc ⊢; omega)]
    simp only [Prod.mk.injEq]
    constructor
    · rw [List.range_succ_eq_map, List.map_cons, List.map_map]
      congr 1
      · norm_num
      · congr 1
        funext i
        show p (next + 1 + (i : ℤ)) = p (next + ((i + 1 : ℕ) : ℤ))
        congr 1
        push_cast
        ring
    · push_cast
      ring

theorem emitLoop_mem (p : ℤ → OutputRecord) (now : ℚ) (next : ℤ) (r : OutputRecord)
    (hr : r ∈ (emitLoop p now next).1) : ∃ t : ℤ, r = p t := by
  rw [emitLoop_eq p now (emitCount now next) next rfl] at hr
  obtain ⟨i, -, hi⟩ := List.mem_map.mp hr
  exact ⟨next + i, hi.symm⟩

theorem stepState_next_tick (cfg : Config) (st : PState) (f : FrameIn) :
    (stepState cfg st f).next_tick = st.next_tick := by
  rw [stepState]
  split <;> rfl

theorem processFrame_eq (cfg : Config) (st : PState) (f : FrameIn) :
    processFrame cfg st f =
      ({ stepState cfg st f with next_tick := st.next_tick + emitCount f.now st.next_tick },
        (List.range (emitCount f.now st.next_tick)).map
          (fun i : ℕ => buildRecord cfg (stepState cfg st f) (norm_init_progress f.res) f.snr
            (bpm_from_res f.res) (frameValidAt cfg st f) f.res f.now (st.next_tick + (i : ℤ)))) := by
  simp only [processFrame]
  rw [stepState_next_tick,
    emitLoop_eq _ f.now (emitCount f.now st.next_tick) st.next_tick rfl]

/-! ## C6: the hold policy -/

theorem fmt2_ne_empty (q : ℚ) : fmt2 q ≠ "" := by
  intro h
  have h2 := congrArg String.length h
  simp only [fmt2, String.length_append] at h2
  rw [show String.length "." = 1 from rfl, show String.length "" = 0 from rfl] at h2
  omega

/-- C6: at emission time the bpm field is non-empty — the smoothed
value rendered with two fraction digits — exactly when a smoothed value
exists and the gap since the last acceptance is at most
`hold_last_for`; past the cutoff the field is the empty string. -/
theorem c6_hold_cutoff (cfg : Config) (st : PState) (ip snr raw : Option ℚ)
    (valid : Bool) (res : Option Frame) (now : ℚ) (tick : ℤ) :
    ((buildRecord cfg st ip snr raw valid res now tick).bpm ≠ "" ↔
      (st.last_good_bpm.isSome = true ∧ now - st.last_good_t ≤ cfg.hold_last_for)) ∧
    (∀ s, st.last_good_bpm = some s → now - st.last_good_t ≤ cfg.hold_last_for →
      (buildRecord cfg st ip snr raw valid res now tick).bpm = fmt2 s) := by
  have hbpm : (buildRecord cfg st ip snr raw valid res now tick).bpm =
      if st.last_good_bpm.isSome && decide (now - st.last_good_t ≤ cfg.hold_last_for)
      then fmt2 (st.last_good_bpm.getD 0) else "" := rfl
  constructor
  · rw [hbpm]
    cases hlast : st.last_good_bpm with
    | none => simp
    | some s0 =>
      by_cases hh : now - st.last_good_t ≤ cfg.hold_last_for
      · simp [hh, fmt2_ne_empty]
      · simp [hh]
  · intro s hs hh
    rw [hbpm, hs]
    simp [hh]

/-- Witness for C6 at the spec's example: `hold_last_for = 5` (the
default), a gap of 4.9 yields the rendered smoothed value, a gap of 5.1
yields the empty string. -/
theorem c6_hold_cutoff_witness :
    (buildRecord ({} : Config) ⟨[12], some 12, 0, 0⟩ none none none false none (49 / 10) 0).bpm
        = fmt2 12 ∧
    (buildRecord ({} : Config) ⟨[12], some 12, 0, 0⟩ none none none false none (51 / 10) 0).bpm
        = "" ∧
    fmt2 12 = "12.00" := by
  refine ⟨(c6_hold_cutoff {} ⟨[12], some 12, 0, 0⟩ none none none false none (49 / 10) 0).2 12
      rfl (by norm_num), ?_, by with_unfolding_all decide⟩
  have h := (c6_hold_cutoff {} ⟨[12], some 12, 0, 0⟩ none none none false none (51 / 10) 0).1
  have hnot : ¬((⟨[12], some 12, 0, 0⟩ : PState).last_good_bpm.isSome = true ∧
      (51 / 10 : ℚ) - (⟨[12], some 12, 0, 0⟩ : PState).last_good_t ≤ ({} : Config).hold_last_for) := by
    with_unfolding_all decide
  exact not_ne_iff.mp fun hne => hnot (h.mp hne)

/-! ## C10: init progress is always known -/

theorem norm_init_progress_isSome (res : Option Frame) :
    ∃ q : ℚ, norm_init_progress res = some q := by
  cases h : safe_float (match res with | some fr => getField fr "init_progress" | none => PyVal.nonev) with
  | none => exact ⟨1, by simp [norm_init_progress, h]⟩
  | some ip =>
    by_cases hip : ip > 1
    · exact ⟨ip / 100, by simp [norm_init_progress, h, hip]⟩
    · exact ⟨ip, by simp [norm_init_progress, h, hip]⟩

theorem buildRecord_note_init (cfg : Config) (st : PState) (snr raw : Option ℚ)
    (valid : Bool) (res : Option Frame) (now : ℚ) (tick : ℤ) (q : ℚ) :
    ∃ tok ∈ (buildRecord cfg st (some q) snr raw valid res now tick).note,
      ∃ s, tok = "init=" ++ s := by
  refine ⟨"init=" ++ fmt2 q, ?_, fmt2 q, rfl⟩
  show "init=" ++ fmt2 q ∈ (buildRecord cfg st (some q) snr raw valid res now tick).note
  dsimp only [buildRecord]
  exact List.mem_append_left _ (List.mem_append_left _
    (List.mem_append_right _ (List.mem_singleton_self _)))

/-- C10: `resolve_init_progress` always yields a numeric value (absence
defaults to 1.0), so the warm-up gate's unknown branch is unreachable
and every emitted record carries an `init=` note token. -/
theorem c10_init_always_known :
    (∀ res : Option Frame, ∃ q : ℚ, norm_init_progress res = some q) ∧
    (∀ (cfg : Config) (st : PState) (f : FrameIn) (r : OutputRecord),
      r ∈ (processFrame cfg st f).2 → ∃ tok ∈ r.note, ∃ s, tok = "init=" ++ s) := by
  refine ⟨norm_init_progress_isSome, ?_⟩
  intro cfg st f r hr
  rw [processFrame_eq] at hr
  obtain ⟨i, -, hi⟩ := List.mem_map.mp hr
  obtain ⟨q, hq⟩ := norm_init_progress_isSome f.res
  rw [← hi, hq]
  exact buildRecord_note_init cfg (stepState cfg st f) f.snr (bpm_from_res f.res)
    (frameValidAt cfg st f) f.res f.now (st.next_tick + i) q

/-! ## C1: the tick-aligned emitter -/

theorem intRange_append (a : ℤ) (n m : ℕ) :
    intRange a n ++ intRange (a + n) m = intRange a (n + m) := by
  unfold intRange
  rw [List.range_add, List.map_append, List.map_map]
  congr 1
  congr 1
  funext i
  show a + (n : ℤ) + (i : ℤ) = a + ((n + i : ℕ) : ℤ)
  push_cast
  ring

theorem le_endNow :
    ∀ (fs : List FrameIn) (x : ℚ), List.Chain' nowLE fs →
      (∀ f ∈ fs.head?, x ≤ f.now) → x ≤ endNow x fs := by
  intro fs
  induction fs with
  | nil => intro x _ _; exact le_refl x
  | cons f fs ih =>
    intro x hchain hhead
    have hx : x ≤ f.now := hhead f rfl
    have hhead' : ∀ g ∈ fs.head?, f.now ≤ g.now := by
      cases fs with
      | nil => intro g hg; simp at hg
      | cons g t =>
        intro g' hg'
        have : g = g' := by simpa using hg'
        subst this
        exact (List.chain'_cons.mp hchain).1
    exact le_trans hx (ih f.now hchain.tail hhead')

theorem processFrame_seconds (cfg : Config) (st : PState) (f : FrameIn) :
    (processFrame cfg st f).2.map (·.unix_s)
      = intRange st.next_tick (emitCount f.now st.next_tick) := by
  rw [processFrame_eq]
  show List.map _ (List.map _ _) = _
  rw [List.map_map]
  rfl

theorem processFrame_next_tick (cfg : Config) (st : PState) (f : FrameIn) :
    (processFrame cfg st f).1.next_tick
      = st.next_tick + (emitCount f.now st.next_tick : ℤ) := by
  rw [processFrame_eq]

theorem runFrames_seconds (cfg : Config) :
    ∀ (fs : List FrameIn) (st : PState) (d : ℚ),
      List.Chain' nowLE fs → (∀ f ∈ fs.head?, d ≤ f.now) → st.next_tick = ⌊d⌋ + 1 →
      ((runFrames cfg st fs).2.map (·.unix_s)
          = intRange st.next_tick ((⌊endNow d fs⌋ + 1 - st.next_tick).toNat))
      ∧ (runFrames cfg st fs).1.next_tick = ⌊endNow d fs⌋ + 1 := by
  intro fs
  induction fs with
  | nil =>
    intro st d _ _ hst
    rw [hst]
    constructor
    · simp [runFrames, endNow, intRange]
    · show st.next_tick = ⌊endNow d []⌋ + 1
      rw [show endNow d [] = d from rfl]
      exact hst
  | cons f fs ih =>
    intro st d hchain hhead hst
    have hdf : d ≤ f.now := hhead f rfl
    have hnext_le : st.next_tick ≤ ⌊f.now⌋ + 1 := by
      rw [hst]
      have := Int.floor_le_floor hdf
      omega
    have hpf1 : (processFrame cfg st f).1.next_tick = ⌊f.now⌋ + 1 := by
      rw [processFrame_next_tick]
      unfold emitCount
      omega
    have hchain' : List.Chain' nowLE fs := hchain.tail
    have hhead' : ∀ g ∈ fs.head?, f.now ≤ g.now := by
      cases fs with
      | nil => intro g hg; simp at hg
      | cons g t =>
        intro g' hg'
        have hg : g = g' := by simpa using hg'
        subst hg
        exact (List.chain'_cons.mp hchain).1
    have ihr := ih (processFrame cfg st f).1 f.now hchain' hhead' hpf1
    have hfle : f.now ≤ endNow f.now fs := le_endNow fs f.now hchain' hhead'
    have hfloor : ⌊f.now⌋ ≤ ⌊endNow f.now fs⌋ := Int.floor_le_floor hfle
    have hend : endNow d (f :: fs) = endNow f.now fs := rfl
    have hsplit2 : (runFrames cfg st (f :: fs)).2
        = (processFrame cfg st f).2 ++ (runFrames cfg (processFrame cfg st f).1 fs).2 := rfl
    have hsplit1 : (runFrames cfg st (f :: fs)).1
        = (runFrames cfg (processFrame cfg st f).1 fs).1 := rfl
    constructor
    · rw [hsplit2, List.map_append, processFrame_seconds, ihr.1, hpf1, hend]
      have harg : (⌊f.now⌋ + 1 : ℤ) = st.next_tick + (emitCount f.now st.next_tick : ℤ) := by
        unfold emitCount
        omega
      rw [harg, intRange_append]
      congr 1
      unfold emitCount
      omega
    · rw [hsplit1, hend]
      exact ihr.2

/-- Records emitted within one frame-processing iteration are built
from the same snapshot: they agree on bpm text and notes, differing
only in their unix-second index. -/
theorem processFrame_same_content (cfg : Config) (st : PState) (f : FrameIn)
    (r1 r2 : OutputRecord)
    (h1 : r1 ∈ (processFrame cfg st f).2) (h2 : r2 ∈ (processFrame cfg st f).2) :
    r1.bpm = r2.bpm ∧ r1.note = r2.note := by
  rw [processFrame_eq] at h1 h2
  obtain ⟨i, -, hi⟩ := List.mem_map.mp h1
  obtain ⟨j, -, hj⟩ := List.mem_map.mp h2
  rw [← hi, ← hj]
  exact ⟨rfl, rfl⟩

/-- C1: over a whole run with nondecreasing wall-clock readings, the
emitted unix-second indices are exactly the consecutive integers from
the first whole second strictly after process start through the last
elapsed second — strictly increasing, none skipped, none duplicated —
and records caught up within one iteration agree on bpm and note,
differing only in their second index. -/
theorem c1_emitter (cfg : Config) (t0 : ℚ) (fs : List FrameIn)
    (hchain : List.Chain' nowLE fs)
    (hstart : ∀ f ∈ fs.head?, t0 ≤ f.now) :
    ((runFrames cfg (initState t0) fs).2.map (·.unix_s)
        = intRange (⌊t0⌋ + 1) ((⌊endNow t0 fs⌋ - ⌊t0⌋).toNat))
    ∧ ∀ (st : PState) (f : FrameIn) (r1 r2 : OutputRecord),
        r1 ∈ (processFrame cfg st f).2 → r2 ∈ (processFrame cfg st f).2 →
        r1.bpm = r2.bpm ∧ r1.note = r2.note := by
  constructor
  · rw [(runFrames_seconds cfg fs (initState t0) t0 hchain hstart rfl).1]
    show intRange (⌊t0⌋ + 1) ((⌊endNow t0 fs⌋ + 1 - (⌊t0⌋ + 1)).toNat) = _
    congr 1
    omega
  · intro st f r1 r2 h1 h2
    exact processFrame_same_content cfg st f r1 r2 h1 h2

/-- Witness for C1: process start at 100.2 (so the first tick is 101),
two frames arriving at 100.5 and 103.4; the run emits exactly the
seconds 101, 102, 103, catching the stall up in one pass. -/
theorem c1_emitter_witness :
    List.Chain' nowLE [⟨none, none, 1005 / 10⟩, ⟨none, none, 1034 / 10⟩] ∧
    (∀ f ∈ ([⟨none, none, 1005 / 10⟩, ⟨none, none, 1034 / 10⟩] : List FrameIn).head?,
      (1002 / 10 : ℚ) ≤ f.now) ∧
    ((runFrames ({} : Config) (initState (1002 / 10))
        [⟨none, none, 1005 / 10⟩, ⟨none, none, 1034 / 10⟩]).2.map (·.unix_s)
      = intRange (⌊(1002 / 10 : ℚ)⌋ + 1)
          ((⌊endNow (1002 / 10) [⟨none, none, 1005 / 10⟩, ⟨none, none, 1034 / 10⟩]⌋
            - ⌊(1002 / 10 : ℚ)⌋).toNat)) ∧
    intRange (⌊(1002 / 10 : ℚ)⌋ + 1)
        ((⌊endNow (1002 / 10) [⟨none, none, 1005 / 10⟩, ⟨none, none, 1034 / 10⟩]⌋
          - ⌊(1002 / 10 : ℚ)⌋).toNat) = [101, 102, 103] := by
  have hchain : List.Chain' nowLE [(⟨none, none, 1005 / 10⟩ : FrameIn), ⟨none, none, 1034 / 10⟩] := by
    rw [List.chain'_cons]
    exact ⟨by norm_num [nowLE], List.chain'_singleton _⟩
  have hstart : ∀ f ∈ ([⟨none, none, 1005 / 10⟩, ⟨none, none, 1034 / 10⟩] : List FrameIn).head?,
      (1002 / 10 : ℚ) ≤ f.now := by
    intro f hf
    have : (⟨none, none, 1005 / 10⟩ : FrameIn) = f := by simpa using hf
    subst this
    norm_num
  exact ⟨hchain, hstart,
    (c1_emitter {} (1002 / 10) [⟨none, none, 1005 / 10⟩, ⟨none, none, 1034 / 10⟩] hchain hstart).1,
    by with_unfolding_all decide⟩

/-! ## C8: state invariants -/

theorem validProm_false (cfg : Config) (ps : Option (List FVal)) :
    validProm cfg false ps = false := by
  cases ps <;> simp [validProm]

theorem frameValid_raw_isSome (cfg : Config) (st : PState) (ip snr raw : Option ℚ)
    (ps : Option (List FVal)) (h : frameValid cfg st ip snr raw ps = true) :
    ∃ r, raw = some r := by
  cases raw with
  | some r => exact ⟨r, rfl⟩
  | none =>
    exfalso
    have hb : validBase cfg ip snr none = false := by simp [validBase]
    have hv : validProm cfg (validBase cfg ip snr none) ps = false := by
      rw [hb]
      exact validProm_false cfg ps
    rw [frameValid, hv] at h
    simp at h

theorem stepState_reject (cfg : Config) (st : PState) (f : FrameIn)
    (h : frameValidAt cfg st f = false) : stepState cfg st f = st := by
  rw [stepState, if_neg]
  simp [h]

theorem stepState_accept (cfg : Config) (st : PState) (f : FrameIn)
    (h : frameValidAt cfg st f = true) :
    stepState cfg st f = { st with
      q := pushBounded cfg.smooth_window st.q ((bpm_from_res f.res).getD 0),
      last_good_bpm := some (smoothOf cfg
        (pushBounded cfg.smooth_window st.q ((bpm_from_res f.res).getD 0))),
      last_good_t := f.now } := by
  rw [stepState, if_pos h]

theorem mem_pushBounded (cap : ℕ) (xs : List ℚ) (v x : ℚ)
    (hx : x ∈ pushBounded cap xs v) : x ∈ xs ∨ x = v := by
  unfold pushBounded at hx
  have := List.drop_subset _ _ hx
  rcases List.mem_append.mp this with h | h
  · exact Or.inl h
  · exact Or.inr (List.mem_singleton.mp h)

theorem acceptedIn_cons (cfg : Config) (st : PState) (f : FrameIn) (fs : List FrameIn) (v : ℚ) :
    AcceptedIn cfg st (f :: fs) v ↔
      (frameValidAt cfg st f = true ∧ bpm_from_res f.res = some v) ∨
      AcceptedIn cfg (processFrame cfg st f).1 fs v := by
  have hzip : (statesAlong cfg st (f :: fs)).zip (f :: fs)
      = (st, f) :: ((statesAlong cfg (processFrame cfg st f).1 fs).zip fs) := rfl
  unfold AcceptedIn
  rw [hzip]
  constructor
  · rintro ⟨p, hp, hc⟩
    rcases List.mem_cons.mp hp with rfl | hp'
    · exact Or.inl hc
    · exact Or.inr ⟨p, hp', hc⟩
  · rintro (⟨h1, h2⟩ | ⟨p, hp, hc⟩)
    · exact ⟨(st, f), List.mem_cons_self _ _, h1, h2⟩
    · exact ⟨p, List.mem_cons_of_mem _ hp, hc⟩

theorem runFrames_buf_mem (cfg : Config) :
    ∀ (fs : List FrameIn) (st : PState) (v : ℚ),
      v ∈ (runFrames cfg st fs).1.q → v ∈ st.q ∨ AcceptedIn cfg st fs v := by
  intro fs
  induction fs with
  | nil => intro st v hv; exact Or.inl hv
  | cons f fs ih =>
    intro st v hv
    have hv' : v ∈ (runFrames cfg (processFrame cfg st f).1 fs).1.q := hv
    rcases ih (processFrame cfg st f).1 v hv' with hmem | hacc
    · have hstep : v ∈ (stepState cfg st f).q := hmem
      cases hval : frameValidAt cfg st f with
      | false =>
        rw [stepState_reject cfg st f hval] at hstep
        exact Or.inl hstep
      | true =>
        rw [stepState_accept cfg st f hval] at hstep
        rcases mem_pushBounded _ _ _ _ hstep with h | h
        · exact Or.inl h
        · obtain ⟨r, hr⟩ := frameValid_raw_isSome cfg st (norm_init_progress f.res) f.snr
            (bpm_from_res f.res) (getSpectrum f.res) hval
          refine Or.inr ((acceptedIn_cons cfg st f fs v).mpr (Or.inl ⟨hval, ?_⟩))
          rw [hr, h, hr]
          rfl
    · exact Or.inr ((acceptedIn_cons cfg st f fs v).mpr (Or.inr hacc))

theorem runFrames_smooth_inv (cfg : Config) :
    ∀ (fs : List FrameIn) (st : PState),
      (∀ s, st.last_good_bpm = some s → s = smoothOf cfg st.q) →
      ∀ s, (runFrames cfg st fs).1.last_good_bpm = some s →
        s = smoothOf cfg (runFrames cfg st fs).1.q := by
  intro fs
  induction fs with
  | nil => intro st hinv s hs; exact hinv s hs
  | cons f fs ih =>
    intro st hinv
    apply ih
    intro s hs
    have hl : (processFrame cfg st f).1.last_good_bpm = (stepState cfg st f).last_good_bpm := rfl
    have hq : (processFrame cfg st f).1.q = (stepState cfg st f).q := rfl
    rw [hl] at hs
    rw [hq]
    cases hval : frameValidAt cfg st f with
    | false =>
      rw [stepState_reject cfg st f hval] at hs ⊢
      exact hinv s hs
    | true =>
      rw [stepState_accept cfg st f hval] at hs ⊢
      exact (Option.some.injEq _ _ ▸ hs :
        smoothOf cfg (pushBounded cfg.smooth_window st.q ((bpm_from_res f.res).getD 0)) = s).symm

/-- C8: after any run, every buffer entry was accepted by the Validity
Gate at the iteration that pushed it; the smoothed value, whenever it
exists, is exactly the configured mean-or-median of the buffer's
current contents; and a rejected frame leaves buffer, smoothed value
and acceptance timestamp unchanged.  (`smooth_window ≥ 1` keeps the run
inside the domain where the Python never hits its empty-buffer
`sorted(q)[0]` / `sum(q)/0` crash.) -/
theorem c8_state_invariants (cfg : Config) (t0 : ℚ) (fs : List FrameIn)
    (hw : 1 ≤ cfg.smooth_window) :
    (∀ v ∈ (runFrames cfg (initState t0) fs).1.q,
      AcceptedIn cfg (initState t0) fs v)
    ∧ (∀ s, (runFrames cfg (initState t0) fs).1.last_good_bpm = some s →
        s = smoothOf cfg (runFrames cfg (initState t0) fs).1.q)
    ∧ (∀ (st : PState) (f : FrameIn), frameValidAt cfg st f = false →
        (processFrame cfg st f).1.q = st.q ∧
        (processFrame cfg st f).1.last_good_bpm = st.last_good_bpm ∧
        (processFrame cfg st f).1.last_good_t = st.last_good_t) := by
  refine ⟨?_, ?_, ?_⟩
  · intro v hv
    rcases runFrames_buf_mem cfg fs (initState t0) v hv with h | h
    · simp [initState] at h
    · exact h
  · refine runFrames_smooth_inv cfg fs (initState t0) ?_
    intro s hs
    simp [initState] at hs
  · intro st f h
    have h1 : (processFrame cfg st f).1.q = (stepState cfg st f).q := rfl
    have h2 : (processFrame cfg st f).1.last_good_bpm = (stepState cfg st f).last_good_bpm := rfl
    have h3 : (processFrame cfg st f).1.last_good_t = (stepState cfg st f).last_good_t := rfl
    rw [h1, h2, h3, stepState_reject cfg st f h]
    exact ⟨rfl, rfl, rfl⟩

/-- Witness for C8: a one-frame run with the default configuration
accepting `f_est = 0.25` (15 bpm). -/
theorem c8_state_invariants_witness :
    1 ≤ ({} : Config).smooth_window ∧
    ((∀ v ∈ (runFrames ({} : Config) (initState 0)
        [⟨some [("f_est", PyVal.num (1 / 4))], none, 1⟩]).1.q,
      AcceptedIn ({} : Config) (initState 0)
        [⟨some [("f_est", PyVal.num (1 / 4))], none, 1⟩] v)
    ∧ (∀ s, (runFrames ({} : Config) (initState 0)
          [⟨some [("f_est", PyVal.num (1 / 4))], none, 1⟩]).1.last_good_bpm = some s →
        s = smoothOf ({} : Config) (runFrames ({} : Config) (initState 0)
          [⟨some [("f_est", PyVal.num (1 / 4))], none, 1⟩]).1.q)
    ∧ (∀ (st : PState) (f : FrameIn), frameValidAt ({} : Config) st f = false →
        (processFrame ({} : Config) st f).1.q = st.q ∧
        (processFrame ({} : Config) st f).1.last_good_bpm = st.last_good_bpm ∧
        (processFrame ({} : Config) st f).1.last_good_t = st.last_good_t)) :=
  ⟨by with_unfolding_all decide,
    c8_state_invariants {} 0 [⟨some [("f_est", PyVal.num (1 / 4))], none, 1⟩]
      (by with_unfolding_all decide)⟩

/-! ## C7: the quality estimator -/

theorem finVals_map_fin (qs : List ℚ) : finVals (qs.map FVal.fin) = qs := by
  rw [finVals, List.filterMap_map]
  exact List.filterMap_some qs

theorem allFinite_map_fin (qs : List ℚ) : allFinite (qs.map FVal.fin) = true := by
  induction qs with
  | nil => rfl
  | cons q qs ih =>
    simp only [List.map_cons, allFinite, List.all_cons] at ih ⊢
    simpa using ih

theorem anyPos_map_fin (qs : List ℚ) :
    anyPos (qs.map FVal.fin) = qs.any fun x => decide (0 < x) := by
  induction qs with
  | nil => rfl
  | cons q qs ih =>
    simp only [List.map_cons, anyPos, List.any_cons] at ih ⊢
    rw [ih]

theorem argmax_fold_spec (qs : List ℚ) :
    ∀ (is : List ℕ) (b : ℕ),
      (is.foldl (fun best i => if qs.getD best 0 < qs.getD i 0 then i else best) b = b ∨
        is.foldl (fun best i => if qs.getD best 0 < qs.getD i 0 then i else best) b ∈ is) ∧
      qs.getD b 0 ≤
        qs.getD (is.foldl (fun best i => if qs.getD best 0 < qs.getD i 0 then i else best) b) 0 ∧
      ∀ j ∈ is, qs.getD j 0 ≤
        qs.getD (is.foldl (fun best i => if qs.getD best 0 < qs.getD i 0 then i else best) b) 0 := by
  intro is
  induction is with
  | nil => intro b; exact ⟨Or.inl rfl, le_refl _, by simp⟩
  | cons i is ih =>
    intro b
    simp only [List.foldl_cons]
    obtain ⟨hmem, hle, hall⟩ :=
      ih (if qs.getD b 0 < qs.getD i 0 then i else b)
    have hbfi : qs.getD b 0 ≤ qs.getD (if qs.getD b 0 < qs.getD i 0 then i else b) 0 := by
      split
      · exact le_of_lt (by assumption)
      · exact le_refl _
    have hifi : qs.getD i 0 ≤ qs.getD (if qs.getD b 0 < qs.getD i 0 then i else b) 0 := by
      split
      · exact le_refl _
      · exact le_of_not_lt (by assumption)
    refine ⟨?_, le_trans hbfi hle, ?_⟩
    · rcases hmem with h | h
      · rw [h]
        split
        · exact Or.inr (List.mem_cons_self _ _)
        · exact Or.inl rfl
      · exact Or.inr (List.mem_cons_of_mem _ h)
    · intro j hj
      rcases List.mem_cons.mp hj with rfl | hj'
      · exact le_trans hifi hle
      · exact hall j hj'

theorem argmaxIdx_lt_length (qs : List ℚ) (h : qs ≠ []) : argmaxIdx qs < qs.length := by
  have hs := (argmax_fold_spec qs (List.range qs.length) 0).1
  unfold argmaxIdx
  rcases hs with h0 | hmem
  · rw [h0]; exact List.length_pos.mpr h
  · exact List.mem_range.mp hmem

theorem argmaxIdx_max (qs : List ℚ) : ∀ x ∈ qs, x ≤ qs.getD (argmaxIdx qs) 0 := by
  intro x hx
  obtain ⟨⟨j, hj⟩, hget⟩ := List.mem_iff_get.mp hx
  have hmax := (argmax_fold_spec qs (List.range qs.length) 0).2.2 j (List.mem_range.mpr hj)
  have hgd : qs.getD j 0 = qs.get ⟨j, hj⟩ := by
    rw [List.getD_eq_getElem _ _ hj]
    rfl
  unfold argmaxIdx
  rw [← hget, ← hgd]
  exact hmax

theorem argmax_mem (qs : List ℚ) (h : qs ≠ []) : qs.getD (argmaxIdx qs) 0 ∈ qs := by
  have hlt := argmaxIdx_lt_length qs h
  rw [List.getD_eq_getElem _ _ hlt]
  exact List.get_mem qs _ hlt

theorem applyMask_cons (q : ℚ) (qs : List ℚ) (b : Bool) (ms : List Bool) :
    applyMask (q :: qs) (b :: ms) = (if b then [q] else []) ++ applyMask qs ms := by
  rw [applyMask, List.zip_cons_cons, List.filterMap_cons]
  cases b <;> simp [applyMask]

theorem applyMask_enumFrom (lo hi : ℕ) :
    ∀ (qs : List ℚ) (k : ℕ),
      applyMask qs ((List.range' k qs.length).map fun i => !(decide (lo ≤ i) && decide (i < hi)))
        = ((List.enumFrom k qs).filter fun iv =>
            !(decide (lo ≤ iv.1) && decide (iv.1 < hi))).map (·.2) := by
  intro qs
  induction qs with
  | nil => intro k; rfl
  | cons q qs ih =>
    intro k
    rw [show (q :: qs).length = qs.length + 1 from rfl, List.range'_succ, List.map_cons,
      applyMask_cons, show List.enumFrom k (q :: qs) = (k, q) :: List.enumFrom (k + 1) qs from rfl,
      List.filter_cons]
    cases hb : (!(decide (lo ≤ k) && decide (k < hi))) with
    | false => simpa [hb] using ih (k + 1)
    | true => simpa [hb] using ih (k + 1)

theorem code_noise_eq_spec (qs : List ℚ) (hne : qs ≠ []) :
    (applyMask qs (maskList qs.length (argmaxIdx qs - 2)
        (min qs.length (argmaxIdx qs + 3)))).filter (fun q => decide (0 < q))
      = specNoiseSet qs := by
  have hp := argmaxIdx_lt_length qs hne
  rw [maskList, List.range_eq_range',
    applyMask_enumFrom (argmaxIdx qs - 2) (min qs.length (argmaxIdx qs + 3)) qs 0,
    List.filter_map, List.filter_filter, specNoiseSet]
  show List.map _ (List.filter _ qs.enum) = List.map _ (List.filter _ qs.enum)
  congr 1
  apply List.filter_congr
  rintro ⟨i, v⟩ hiv
  have hilen : i < qs.length := by
    rw [List.enum_eq_zip_range] at hiv
    exact List.mem_range.mp (List.of_mem_zip hiv).1
  rw [Bool.eq_iff_iff]
  simp only [Function.comp, Bool.and_eq_true, Bool.or_eq_true, Bool.not_eq_true',
    Bool.and_eq_false_iff, decide_eq_true_eq, decide_eq_false_iff_not, not_le, not_lt]
  constructor
  · rintro ⟨hv, hcond⟩
    refine ⟨?_, hv⟩
    rcases hcond with h | h
    · left; omega
    · right; omega
  · rintro ⟨hcond, hv⟩
    refine ⟨hv, ?_⟩
    rcases hcond with h | h
    · left; omega
    · right; omega

theorem snrPrimary_map_fin (qs : List ℚ) (hlen : 8 < qs.length)
    (hpos : qs.any (fun x => decide (0 < x)) = true) :
    snrPrimary (some (qs.map FVal.fin))
      = if specNoiseSet qs = [] then none
        else some (qs.getD (argmaxIdx qs) 0, npMedian (specNoiseSet qs)) := by
  have hne : qs ≠ [] := by
    intro h
    subst h
    simp at hlen
  have hcond : (allFinite (qs.map FVal.fin) && decide (8 < (qs.map FVal.fin).length) &&
      anyPos (qs.map FVal.fin)) = true := by
    rw [allFinite_map_fin, anyPos_map_fin, List.length_map]
    simp [hlen, hpos]
  simp only [snrPrimary, hcond, if_true, finVals_map_fin]
  rw [code_noise_eq_spec qs hne]
  by_cases hnl : specNoiseSet qs = []
  · simp [hnl]
  · simp [hnl, List.length_eq_zero]

/-- C7: for a spectrum of more than 8 bins, all finite, with a strictly
positive entry, the estimator's peak is the greatest spectrum value and
— when the noise set (the strictly positive values outside the two-bin
window around the peak) is non-empty — the quality equals
`10·log10(peak / median(noise))`; if the noise set is empty, or the
preconditions fail (the primary path yields nothing), the quality falls
back to the frame's reported snr field (or stays unknown), never
raising. -/
theorem c7_quality (qs : List ℚ) (res : Option Frame)
    (hlen : 8 < qs.length) (hpos : qs.any (fun x => decide (0 < x)) = true) :
    ((qs.getD (argmaxIdx qs) 0) ∈ qs ∧ ∀ x ∈ qs, x ≤ qs.getD (argmaxIdx qs) 0)
    ∧ (specNoiseSet qs ≠ [] →
        snrDb (some (qs.map FVal.fin)) res
          = some (10 * Real.logb 10 ((qs.getD (argmaxIdx qs) 0 : ℝ)
              / (npMedian (specNoiseSet qs) : ℝ))))
    ∧ (specNoiseSet qs = [] →
        snrDb (some (qs.map FVal.fin)) res = (snrField res).map fun q => (q : ℝ))
    ∧ (∀ ps' : Option (List FVal), snrPrimary ps' = none →
        snrDb ps' res = (snrField res).map fun q => (q : ℝ)) := by
  have hne : qs ≠ [] := by
    intro h
    subst h
    simp at hlen
  refine ⟨⟨argmax_mem qs hne, argmaxIdx_max qs⟩, ?_, ?_, ?_⟩
  · intro hnn
    simp only [snrDb, snrPrimary_map_fin qs hlen hpos, if_neg hnn]
  · intro hn
    simp only [snrDb, snrPrimary_map_fin qs hlen hpos, if_pos hn]
  · intro ps' hps'
    simp only [snrDb, hps']

/-- Witness for C7 at the 9-bin spectrum `[4,1,1,1,1,2,2,2,2]`: peak 4
at index 0, window `[0,3)` masked out, noise `[1,1,2,2,2,2]` with
median 2, quality `10·log10(4/2)`. -/
theorem c7_quality_witness :
    (8 < ([4, 1, 1, 1, 1, 2, 2, 2, 2] : List ℚ).length) ∧
    (([4, 1, 1, 1, 1, 2, 2, 2, 2] : List ℚ).any (fun x => decide (0 < x)) = true) ∧
    specNoiseSet ([4, 1, 1, 1, 1, 2, 2, 2, 2] : List ℚ) = [1, 1, 2, 2, 2, 2] ∧
    npMedian (specNoiseSet ([4, 1, 1, 1, 1, 2, 2, 2, 2] : List ℚ)) = 2 ∧
    ([4, 1, 1, 1, 1, 2, 2, 2, 2] : List ℚ).getD
      (argmaxIdx ([4, 1, 1, 1, 1, 2, 2, 2, 2] : List ℚ)) 0 = 4 ∧
    snrDb (some (([4, 1, 1, 1, 1, 2, 2, 2, 2] : List ℚ).map FVal.fin)) none
      = some (10 * Real.logb 10
          ((([4, 1, 1, 1, 1, 2, 2, 2, 2] : List ℚ).getD
              (argmaxIdx ([4, 1, 1, 1, 1, 2, 2, 2, 2] : List ℚ)) 0 : ℝ)
            / (npMedian (specNoiseSet ([4, 1, 1, 1, 1, 2, 2, 2, 2] : List ℚ)) : ℝ))) := by
  refine ⟨by decide, by with_unfolding_all decide, by with_unfolding_all decide,
    by with_unfolding_all decide, by with_unfolding_all decide, ?_⟩
  exact (c7_quality [4, 1, 1, 1, 1, 2, 2, 2, 2] none (by decide)
    (by with_unfolding_all decide)).2.1 (by with_unfolding_all decide)

end RespSync
